import Mathlib

/-!
Verification of the rank-and-reorder utility, the pluck helper and the
simpleState cell factory of the typescript-handbook-recap repository
(src/src/generics.ts and src/src/abstract.ts), as shallow embeddings over
Lean lists.  Numeric ranks are modelled as integers; JavaScript's stable
Array.prototype.sort with the comparator (a, b) => a.rank - b.rank is
modelled as the stable insertion sort under the relation
a.rank - b.rank <= 0, i.e. a.rank <= b.rank.
-/

namespace TSHandbook

/-- Decorated pair produced inside ranker, mirroring the source interface
Rank with fields item and rank (src/src/generics.ts lines 21-24). -/
structure Rank (RankItem : Type) where
  item : RankItem
  rank : Int
deriving DecidableEq

/-- Ordering on decorated pairs induced by the source comparator
(a, b) => a.rank - b.rank: a precedes-or-ties b exactly when
a.rank - b.rank <= 0, i.e. a.rank <= b.rank. -/
def rankLe {RankItem : Type} (a b : Rank RankItem) : Prop :=
  a.rank ≤ b.rank

instance {γ : Type} : DecidableRel (@rankLe γ) :=
  fun a b => inferInstanceAs (Decidable (a.rank ≤ b.rank))

instance {γ : Type} : IsTotal (Rank γ) rankLe :=
  ⟨fun a b => Int.le_total a.rank b.rank⟩

instance {γ : Type} : IsTrans (Rank γ) rankLe :=
  ⟨fun _ _ _ h h2 => le_trans h h2⟩

/-- Shallow embedding of ranker (src/src/generics.ts lines 26-38): decorate
each item with its computed rank via map, sort the decorated pairs with the
stable sort under the comparator (a, b) => a.rank - b.rank, and project the
bare items back out. -/
def ranker {γ : Type} (items : List γ) (rank : γ → Int) : List γ :=
  let ranks : List (Rank γ) := items.map (fun item => Rank.mk item (rank item))
  (List.insertionSort rankLe ranks).map Rank.item

theorem ranker_def {γ : Type} (items : List γ) (rank : γ → Int) :
    ranker items rank =
      (List.insertionSort rankLe
        (items.map (fun item => Rank.mk item (rank item)))).map Rank.item := rfl

/-- Projecting the item back out of the decorated list recovers the
original list. -/
theorem map_item_decorate {γ : Type} (rank : γ → Int) (l : List γ) :
    (l.map (fun item => Rank.mk item (rank item))).map Rank.item = l := by
  rw [List.map_map]
  exact List.map_id' l

/-- Every decorated entry that ranker sorts carries the rank computed from
its own item. -/
theorem rank_eq_of_mem_decorated {γ : Type} {rank : γ → Int} {items : List γ}
    {e : Rank γ} (he : e ∈ items.map (fun item => Rank.mk item (rank item))) :
    e.rank = rank e.item := by
  rcases List.mem_map.1 he with ⟨x, _, rfl⟩
  rfl

/-- C1: the output of ranker is a permutation of its input: same length and
same multiset of elements, for every element type and every rank function. -/
theorem ranker_perm {γ : Type} (items : List γ) (rank : γ → Int) :
    (ranker items rank).length = items.length ∧
      List.Perm (ranker items rank) items := by
  have hperm : List.Perm (ranker items rank) items := by
    have h1 := List.perm_insertionSort rankLe
      (items.map (fun item => Rank.mk item (rank item)))
    have h2 := h1.map Rank.item
    rw [map_item_decorate] at h2
    exact h2
  exact ⟨hperm.length_eq, hperm⟩

/-- C7: on an input already sorted ascending by rank, ranker returns the
input element for element; in particular ranker of the empty list is the
empty list for every rank function. -/
theorem ranker_sorted_input {γ : Type} :
    (∀ (items : List γ) (rank : γ → Int),
        items.Pairwise (fun a b => rank a ≤ rank b) → ranker items rank = items) ∧
      (∀ rank : γ → Int, ranker ([] : List γ) rank = []) := by
  constructor
  · intro items rank hsorted
    have hdec : List.Sorted rankLe
        (items.map (fun item => Rank.mk item (rank item))) := by
      rw [List.Sorted, List.pairwise_map]
      exact hsorted
    rw [ranker_def, List.Sorted.insertionSort_eq hdec, map_item_decorate]
  · intro rank
    rfl

/-- Witness for C7 at the concrete already-sorted input [1, 2, 3] with the
identity rank function. -/
theorem ranker_sorted_input_witness :
    ranker [(1 : Int), 2, 3] (fun n => n) = [1, 2, 3] :=
  (ranker_sorted_input (γ := Int)).1 [1, 2, 3] (fun n => n) (by decide)

/-- The sorted decorated list inside ranker is sorted under rankLe. -/
theorem sorted_decorated {γ : Type} (items : List γ) (rank : γ → Int) :
    List.Sorted rankLe
      (List.insertionSort rankLe
        (items.map (fun item => Rank.mk item (rank item)))) :=
  List.sorted_insertionSort rankLe _

/-- Every entry of the sorted decorated list carries the rank computed from
its own item. -/
theorem rank_eq_of_mem_sorted {γ : Type} {rank : γ → Int} {items : List γ}
    {e : Rank γ}
    (he : e ∈ List.insertionSort rankLe
        (items.map (fun item => Rank.mk item (rank item)))) :
    e.rank = rank e.item :=
  rank_eq_of_mem_decorated ((List.mem_insertionSort rankLe).1 he)

/-- C2: for any two positions i < j of the output of ranker, the rank of the
element at position i is at most the rank of the element at position j. -/
theorem ranker_ordered {γ : Type} (items : List γ) (rank : γ → Int)
    (i j : Nat) (x y : γ) (hij : i < j)
    (hx : (ranker items rank)[i]? = some x)
    (hy : (ranker items rank)[j]? = some y) :
    rank x ≤ rank y := by
  have hmapx : ((List.insertionSort rankLe
      (items.map (fun item => Rank.mk item (rank item))))[i]?).map Rank.item =
      some x := by
    rw [← List.getElem?_map]
    exact hx
  have hmapy : ((List.insertionSort rankLe
      (items.map (fun item => Rank.mk item (rank item))))[j]?).map Rank.item =
      some y := by
    rw [← List.getElem?_map]
    exact hy
  rcases Option.map_eq_some'.1 hmapx with ⟨e, hei, hex⟩
  rcases Option.map_eq_some'.1 hmapy with ⟨f, hfj, hfy⟩
  rcases List.getElem?_eq_some.1 hei with ⟨hilt, hie⟩
  rcases List.getElem?_eq_some.1 hfj with ⟨hjlt, hjf⟩
  have hrel := (sorted_decorated items rank).rel_get_of_lt
      (a := ⟨i, hilt⟩) (b := ⟨j, hjlt⟩) hij
  have hrel2 : e.rank ≤ f.rank := by
    have hge : (List.insertionSort rankLe
        (items.map (fun item => Rank.mk item (rank item)))).get ⟨i, hilt⟩ = e := hie
    have hgf : (List.insertionSort rankLe
        (items.map (fun item => Rank.mk item (rank item)))).get ⟨j, hjlt⟩ = f := hjf
    rw [hge, hgf] at hrel
    exact hrel
  have hex2 : rank x = e.rank := by
    have hem : e ∈ List.insertionSort rankLe
        (items.map (fun item => Rank.mk item (rank item))) :=
      hie ▸ List.getElem_mem hilt
    rw [rank_eq_of_mem_sorted hem, hex]
  have hfy2 : rank y = f.rank := by
    have hfm : f ∈ List.insertionSort rankLe
        (items.map (fun item => Rank.mk item (rank item))) :=
      hjf ▸ List.getElem_mem hjlt
    rw [rank_eq_of_mem_sorted hfm, hfy]
  rw [hex2, hfy2]
  exact hrel2

/-- Witness for C2 on the concrete input [2, 1] with the identity rank
function: the output is [1, 2] and position 0 ranks at most position 1. -/
theorem ranker_ordered_witness :
    (ranker [(2 : Int), 1] (fun n => n))[0]? = some 1 ∧
      (ranker [(2 : Int), 1] (fun n => n))[1]? = some 2 ∧
      (fun n : Int => n) 1 ≤ (fun n : Int => n) 2 :=
  ⟨by decide, by decide,
    ranker_ordered [(2 : Int), 1] (fun n => n) 0 1 1 2 (by decide)
      (by decide) (by decide)⟩

/-- C3: ranker is stable: whenever a and b have equal rank and a occurs
before b in the input (the two-element list [a, b] is a sublist of the
input), a still occurs before b in the output. -/
theorem ranker_stable {γ : Type} (items : List γ) (rank : γ → Int)
    (a b : γ) (hrank : rank a = rank b)
    (hsub : List.Sublist [a, b] items) :
    List.Sublist [a, b] (ranker items rank) := by
  have hsub2 : List.Sublist
      ([a, b].map (fun item => Rank.mk item (rank item)))
      (items.map (fun item => Rank.mk item (rank item))) :=
    hsub.map _
  have hpair : List.Sublist
      [Rank.mk a (rank a), Rank.mk b (rank b)]
      (List.insertionSort rankLe
        (items.map (fun item => Rank.mk item (rank item)))) := by
    refine List.pair_sublist_insertionSort ?_ hsub2
    show rank a ≤ rank b
    rw [hrank]
  have := hpair.map Rank.item
  simpa [ranker_def] using this

/-- Witness for C3 on the concrete tied input [(1, 10), (1, 20)] ranked by
the first component: the pair keeps its input order in the output. -/
theorem ranker_stable_witness :
    List.Sublist [((1 : Int), (10 : Int)), (1, 20)]
      (ranker [((1 : Int), (10 : Int)), (1, 20)] Prod.fst) :=
  ranker_stable [((1 : Int), (10 : Int)), (1, 20)] Prod.fst
    ((1 : Int), (10 : Int)) ((1 : Int), (20 : Int)) rfl (List.Sublist.refl _)

/-- Effectful decorate pass of ranker: items.map calls its callback once per
element, left to right, here made explicit by threading a state through the
single rank call made for each item. -/
def decorateSt {γ σ : Type} (rank : γ → σ → Int × σ) :
    List γ → σ → List (Rank γ) × σ
  | [], s => ([], s)
  | a :: l, s =>
    let p := rank a s
    let q := decorateSt rank l p.2
    (Rank.mk a p.1 :: q.1, q.2)

/-- Instrumented embedding of ranker for an effectful rank function: the
decorate pass threads the state, while the sort and the final projection
read only the stored rank fields and perform no further rank calls, exactly
as in the source where ranks.sort compares a.rank - b.rank on the stored
numbers. -/
def rankerTraced {γ σ : Type} (items : List γ) (rank : γ → σ → Int × σ)
    (s : σ) : List γ × σ :=
  let p := decorateSt rank items s
  ((List.insertionSort rankLe p.1).map Rank.item, p.2)

/-- The decorate pass with a recording rank function appends exactly the
input items, in order, to the call log, and computes the pure decoration. -/
theorem decorateSt_recording {γ : Type} (f : γ → Int) :
    ∀ (items : List γ) (s : List γ),
      decorateSt (fun a s => (f a, s ++ [a])) items s =
        (items.map (fun item => Rank.mk item (f item)), s ++ items) := by
  intro items
  induction items with
  | nil => intro s; simp [decorateSt]
  | cons a l ih =>
    intro s
    simp [decorateSt, ih (s ++ [a])]

/-- C4: rank is invoked exactly once per input item.  Running ranker with a
rank function that logs every argument it is called with produces a call log
equal to the input list itself (one call per item, n calls in total, in
input order), and the returned sequence is the one the pure ranker
computes. -/
theorem ranker_single_call {γ : Type} (items : List γ) (f : γ → Int)
    (s : List γ) :
    (rankerTraced items (fun a s => (f a, s ++ [a])) s).2 = s ++ items ∧
      (rankerTraced items (fun a s => (f a, s ++ [a])) s).1 = ranker items f := by
  constructor
  · show (decorateSt (fun a s => (f a, s ++ [a])) items s).2 = s ++ items
    rw [decorateSt_recording]
  · show (List.insertionSort rankLe
        (decorateSt (fun a s => (f a, s ++ [a])) items s).1).map Rank.item =
      ranker items f
    rw [decorateSt_recording, ranker_def]

/-- Effectful decorate pass for a rank function that can fail: the first
failing call aborts the whole pass with no partial result. -/
def decorateOpt {γ : Type} (rank : γ → Option Int) :
    List γ → Option (List (Rank γ))
  | [] => some []
  | a :: l =>
    match rank a with
    | none => none
    | some r => (decorateOpt rank l).map (fun q => Rank.mk a r :: q)

/-- Embedding of ranker for a rank function that can throw, modelled by
Option: a throw in the decorate pass propagates out of ranker uncaught and
no sorting or projection happens on a partial decoration. -/
def rankerOpt {γ : Type} (items : List γ) (rank : γ → Option Int) :
    Option (List γ) :=
  (decorateOpt rank items).map
    (fun q => (List.insertionSort rankLe q).map Rank.item)

/-- A failing rank call makes the decorate pass fail. -/
theorem decorateOpt_none {γ : Type} (rank : γ → Option Int) :
    ∀ {items : List γ} {a : γ}, a ∈ items → rank a = none →
      decorateOpt rank items = none := by
  intro items
  induction items with
  | nil => intro a ha; cases ha
  | cons b l ih =>
    intro a ha hnone
    rcases List.mem_cons.1 ha with rfl | hmem
    · simp [decorateOpt, hnone]
    · cases hb : rank b with
      | none => simp [decorateOpt, hb]
      | some r => simp [decorateOpt, hb, ih hmem hnone]

/-- A rank function total on the items decorates them all successfully. -/
theorem decorateOpt_total {γ : Type} (rank : γ → Option Int) (f : γ → Int) :
    ∀ {items : List γ}, (∀ a ∈ items, rank a = some (f a)) →
      decorateOpt rank items =
        some (items.map (fun item => Rank.mk item (f item))) := by
  intro items
  induction items with
  | nil => intro _; rfl
  | cons b l ih =>
    intro htot
    have hb : rank b = some (f b) := htot b (List.mem_cons_self b l)
    have hl : ∀ a ∈ l, rank a = some (f a) :=
      fun a ha => htot a (List.mem_cons_of_mem b ha)
    simp [decorateOpt, hb, ih hl]

/-- C5: if rank throws for some item the failure propagates out of ranker
with no partial or default result; and if rank is total on the supplied
items, ranker succeeds and returns exactly the pure ranker result. -/
theorem ranker_failure {γ : Type} (items : List γ) (rank : γ → Option Int) :
    (∀ a ∈ items, rank a = none → rankerOpt items rank = none) ∧
      (∀ f : γ → Int, (∀ a ∈ items, rank a = some (f a)) →
        rankerOpt items rank = some (ranker items f)) := by
  constructor
  · intro a ha hnone
    rw [rankerOpt, decorateOpt_none rank ha hnone]
    rfl
  · intro f htot
    rw [rankerOpt, decorateOpt_total rank f htot]
    rfl

/-- Witness for C5 on [1, 0]: a rank function failing on 0 makes ranker
fail, and the same function restricted to total inputs succeeds with the
pure result. -/
theorem ranker_failure_witness :
    rankerOpt [(1 : Int), 0] (fun n => if n = 0 then none else some n) =
        none ∧
      rankerOpt [(2 : Int), 1] (fun n => some n) =
        some (ranker [(2 : Int), 1] (fun n => n)) :=
  ⟨(ranker_failure [(1 : Int), 0]
        (fun n => if n = 0 then none else some n)).1 0 (by decide) (by decide),
    (ranker_failure [(2 : Int), 1] (fun n => some n)).2 (fun n => n)
      (fun a _ => rfl)⟩

/-- Shallow embedding of pluck (src/src/abstract.ts lines 50-55): map the
keyed field access over the items.  The structural key of the source is
embedded as the field accessor function of the record type, per the keyed
property lookup item[key]. -/
def pluck {δ κ : Type} (items : List δ) (key : δ → κ) : List κ :=
  items.map (fun item => key item)

/-- C8: pluck returns the sequence of the keyed field values: same length
as the input, and the element at every position i is the keyed field of the
input item at position i, in input order. -/
theorem pluck_spec {δ κ : Type} (items : List δ) (key : δ → κ) :
    (pluck items key).length = items.length ∧
      ∀ i : Nat, (pluck items key)[i]? = (items[i]?).map key := by
  refine ⟨List.length_map items _, fun i => ?_⟩
  rw [pluck, List.getElem?_map]

/-- Record type of the source interface Dog1 (src/src/abstract.ts lines
57-61): the optional field title is embedded as an Option, absence being
none, mirroring that item.title evaluates to undefined when absent. -/
structure Dog1 where
  name : String
  age : Nat
  title : Option String
deriving DecidableEq

/-- The concrete dogs list of the source (src/src/abstract.ts lines 62-65):
Mimi has a title, LG lacks one. -/
def dogs : List Dog1 :=
  [Dog1.mk "Mimi" 12 (some "sdad"), Dog1.mk "LG" 13 none]

/-- C10: plucking an optional field yields exactly one entry per input item,
the entry for an item lacking the field being none at that item's position,
and pluck never fails or skips items; on the source dogs list the plucked
titles are [some sdad, none]. -/
theorem pluck_optional :
    (∀ items : List Dog1, (pluck items Dog1.title).length = items.length) ∧
      (∀ (items : List Dog1) (i : Nat) (d : Dog1), items[i]? = some d →
        d.title = none → (pluck items Dog1.title)[i]? = some none) ∧
      pluck dogs Dog1.title = [some "sdad", none] := by
  refine ⟨fun items => List.length_map items _, ?_, rfl⟩
  intro items i d hget htitle
  rw [pluck, List.getElem?_map, hget]
  simp [htitle]

/-- Witness for C10 at the source dogs list: the dog at position 1 lacks a
title and pluck reports none at position 1. -/
theorem pluck_optional_witness :
    (pluck dogs Dog1.title)[1]? = some none :=
  pluck_optional.2.1 dogs 1 (Dog1.mk "LG" 13 none) rfl rfl

/-- Store of mutable cells of one value type.  Each call of simpleState
allocates one fresh cell; the source closures capturing the local variable
val are modelled by store passing, the returned cell index standing for the
captured variable. -/
structure CellStore (γ : Type) where
  cells : List γ

/-- Embedding of simpleState (src/src/generics.ts lines 1-9): allocate a
fresh cell holding the initial value and return its index together with the
grown store; the returned getter and setter closures of the source are
getState and setState applied at that index. -/
def simpleState {γ : Type} (s : CellStore γ) (initial : γ) :
    Nat × CellStore γ :=
  (s.cells.length, CellStore.mk (s.cells ++ [initial]))

/-- Getter closure of the cell at index p: read the captured variable. -/
def getState {γ : Type} (s : CellStore γ) (p : Nat) : Option γ :=
  s.cells[p]?

/-- Setter closure of the cell at index p: overwrite the captured
variable. -/
def setState {γ : Type} (s : CellStore γ) (p : Nat) (v : γ) : CellStore γ :=
  CellStore.mk (s.cells.set p v)

/-- C9: a cell made by simpleState reads its initial value before any set;
after a set of v the read returns v (the most recently set value); setting
one cell never changes the value read from a different cell; and the cell
simpleState returns is distinct from every previously allocated cell, so
distinct simpleState calls yield independent cells. -/
theorem simpleState_spec {γ : Type} (s : CellStore γ) (initial : γ) :
    getState (simpleState s initial).2 (simpleState s initial).1 =
        some initial ∧
      (∀ (p : Nat) (v : γ), p < s.cells.length →
        getState (setState s p v) p = some v) ∧
      (∀ (p q : Nat) (v : γ), q ≠ p →
        getState (setState s q v) p = getState s p) ∧
      (∀ p : Nat, p < s.cells.length → (simpleState s initial).1 ≠ p) := by
  refine ⟨?_, ?_, ?_, ?_⟩
  · show (s.cells ++ [initial])[s.cells.length]? = some initial
    simp
  · intro p v hp
    show (s.cells.set p v)[p]? = some v
    simp [List.getElem?_set, hp]
  · intro p q v hqp
    show (s.cells.set q v)[p]? = s.cells[p]?
    exact List.getElem?_set_ne hqp
  · intro p hp
    show s.cells.length ≠ p
    omega

/-- Witness for C9 on concrete stores: a fresh Int cell reads 0, a set cell
reads the value just set, and setting cell 1 leaves cell 0 unchanged. -/
theorem simpleState_spec_witness :
    getState (simpleState (CellStore.mk ([] : List Int)) 0).2
        (simpleState (CellStore.mk ([] : List Int)) 0).1 = some 0 ∧
      getState (setState (CellStore.mk [(5 : Int)]) 0 7) 0 = some 7 ∧
      getState (setState (CellStore.mk [(1 : Int), 2]) 1 9) 0 =
        getState (CellStore.mk [(1 : Int), 2]) 0 ∧
      (simpleState (CellStore.mk [(4 : Int)]) 8).1 ≠ 0 :=
  ⟨(simpleState_spec (CellStore.mk ([] : List Int)) 0).1,
    (simpleState_spec (CellStore.mk [(5 : Int)]) 0).2.1 0 7 (by decide),
    (simpleState_spec (CellStore.mk [(1 : Int), 2]) 0).2.2.1 0 1 9 (by decide),
    (simpleState_spec (CellStore.mk [(4 : Int)]) 8).2.2.2 0 (by decide)⟩

/-- Heap value: a bare item array or a decorated pair array, the two array
shapes ranker touches. -/
inductive HVal (γ : Type) where
  | arr : List γ → HVal γ
  | rarr : List (Rank γ) → HVal γ
deriving DecidableEq

/-- Heap of arrays addressed by allocation order, modelling the JavaScript
array objects that ranker reads, allocates and mutates. -/
structure Heap (γ : Type) where
  cells : List (HVal γ)

/-- Allocate a fresh array on the heap and return its address. -/
def Heap.alloc {γ : Type} (h : Heap γ) (v : HVal γ) : Nat × Heap γ :=
  (h.cells.length, Heap.mk (h.cells ++ [v]))

/-- Read the array at an address. -/
def Heap.read {γ : Type} (h : Heap γ) (p : Nat) : Option (HVal γ) :=
  h.cells[p]?

/-- Overwrite the array at an address in place. -/
def Heap.write {γ : Type} (h : Heap γ) (p : Nat) (v : HVal γ) : Heap γ :=
  Heap.mk (h.cells.set p v)

/-- Heap-level embedding of ranker: items.map allocates the fresh ranks
array, ranks.sort mutates that fresh array in place, and the final map over
ranks allocates the fresh result array; the input array is only read. -/
def rankerHeap {γ : Type} (h : Heap γ) (p : Nat) (rank : γ → Int) :
    Option (Nat × Heap γ) :=
  match h.read p with
  | some (HVal.arr items) =>
    let a1 := h.alloc
      (HVal.rarr (items.map (fun item => Rank.mk item (rank item))))
    match a1.2.read a1.1 with
    | some (HVal.rarr ranks) =>
      let h2 := a1.2.write a1.1 (HVal.rarr (List.insertionSort rankLe ranks))
      match h2.read a1.1 with
      | some (HVal.rarr sortedRanks) =>
        some (h2.alloc (HVal.arr (sortedRanks.map Rank.item)))
      | _ => none
    | _ => none
  | _ => none

/-- C6: ranker does not mutate its input and returns a fresh array: when
the address p holds the input items, the call succeeds, the returned
address differs from p, the array at p is unchanged afterwards, and the
returned address holds exactly the pure ranker result. -/
theorem ranker_no_mutation {γ : Type} (h : Heap γ) (p : Nat)
    (items : List γ) (rank : γ → Int)
    (hread : h.read p = some (HVal.arr items)) :
    (rankerHeap h p rank).isSome = true ∧
      ((rankerHeap h p rank).getD (p, h)).1 ≠ p ∧
      ((rankerHeap h p rank).getD (p, h)).2.read p =
        some (HVal.arr items) ∧
      ((rankerHeap h p rank).getD (p, h)).2.read
          (((rankerHeap h p rank).getD (p, h)).1) =
        some (HVal.arr (ranker items rank)) := by
  have hp : p < h.cells.length := by
    have := List.getElem?_eq_some.1 hread
    exact this.1
  have hread1 : (h.alloc
      (HVal.rarr (items.map (fun item => Rank.mk item (rank item))))).2.read
        (h.alloc
          (HVal.rarr (items.map (fun item => Rank.mk item (rank item))))).1 =
      some (HVal.rarr (items.map (fun item => Rank.mk item (rank item)))) := by
    show (h.cells ++ [_])[h.cells.length]? = _
    simp
  have hval : rankerHeap h p rank =
      some (((h.cells.length + 1 : Nat),
        Heap.mk ((h.cells ++
            [HVal.rarr (items.map (fun item => Rank.mk item (rank item)))]).set
              h.cells.length
              (HVal.rarr (List.insertionSort rankLe
                (items.map (fun item => Rank.mk item (rank item))))) ++
          [HVal.arr (ranker items rank)]))) := by
    rw [rankerHeap, hread]
    simp only [hread1]
    have hwrite : ((h.alloc
        (HVal.rarr (items.map (fun item => Rank.mk item (rank item))))).2.write
          (h.alloc
            (HVal.rarr (items.map (fun item => Rank.mk item (rank item))))).1
          (HVal.rarr (List.insertionSort rankLe
            (items.map (fun item => Rank.mk item (rank item)))))).read
        (h.alloc
          (HVal.rarr (items.map (fun item => Rank.mk item (rank item))))).1 =
        some (HVal.rarr (List.insertionSort rankLe
          (items.map (fun item => Rank.mk item (rank item))))) := by
      show ((h.cells ++ [_]).set h.cells.length _)[h.cells.length]? = _
      rw [List.getElem?_set]
      simp
    simp only [hwrite]
    show some (_, Heap.mk (_ ++ [_])) = _
    have hlen : ((h.cells ++
        [HVal.rarr (items.map (fun item => Rank.mk item (rank item)))]).set
          h.cells.length
          (HVal.rarr (List.insertionSort rankLe
            (items.map (fun item => Rank.mk item (rank item)))))).length =
        h.cells.length + 1 := by
      simp
    rw [ranker_def]
    simp [Heap.alloc, Heap.write, hlen, List.set_append]
  refine ⟨by rw [hval]; rfl, ?_, ?_, ?_⟩
  · rw [hval]
    show h.cells.length + 1 ≠ p
    omega
  · rw [hval]
    show (_ ++ [_])[p]? = _
    rw [List.getElem?_append_left (by simp; omega),
      List.getElem?_set_ne (by omega), List.getElem?_append_left hp]
    exact hread
  · rw [hval]
    show (_ ++ [HVal.arr (ranker items rank)])[h.cells.length + 1]? = _
    rw [List.getElem?_append_right (by simp)]
    simp

/-- Witness for C6 on a one-array heap holding [3, 1, 2] at address 0 with
the identity rank function. -/
theorem ranker_no_mutation_witness :
    (rankerHeap (Heap.mk [HVal.arr [(3 : Int), 1, 2]]) 0
        (fun n => n)).isSome = true ∧
      ((rankerHeap (Heap.mk [HVal.arr [(3 : Int), 1, 2]]) 0
          (fun n => n)).getD (0, Heap.mk [HVal.arr [(3 : Int), 1, 2]])).1 ≠
        0 ∧
      ((rankerHeap (Heap.mk [HVal.arr [(3 : Int), 1, 2]]) 0
          (fun n => n)).getD
            (0, Heap.mk [HVal.arr [(3 : Int), 1, 2]])).2.read 0 =
        some (HVal.arr [(3 : Int), 1, 2]) ∧
      ((rankerHeap (Heap.mk [HVal.arr [(3 : Int), 1, 2]]) 0
          (fun n => n)).getD
            (0, Heap.mk [HVal.arr [(3 : Int), 1, 2]])).2.read
          (((rankerHeap (Heap.mk [HVal.arr [(3 : Int), 1, 2]]) 0
            (fun n => n)).getD
              (0, Heap.mk [HVal.arr [(3 : Int), 1, 2]])).1) =
        some (HVal.arr (ranker [(3 : Int), 1, 2] (fun n => n))) :=
  ranker_no_mutation (Heap.mk [HVal.arr [(3 : Int), 1, 2]]) 0
    [(3 : Int), 1, 2] (fun n => n) rfl

end TSHandbook
